import Mathlib

/-!
# libHh/Random.cpp: the seeded random-number source

A shallow embedding of `hh::Random` (src/libHh/Random.cpp).  Machine integers
are natural numbers with explicit reduction modulo `2^32` / `2^64` where the
C++ types wrap.  `std::mt19937` is the engine of the C++ standard library
(header `<random>`), which is not among the sources; the spec names it as
MT19937 with standard parameters, and it is embedded from its definition in
the C++ standard, [rand.eng.mers] and [rand.predef]:
`mersenne_twister_engine<uint_fast32_t, 32, 624, 397, 31, 0x9908b0df, 11,
0xffffffff, 7, 0x9d2c5680, 15, 0xefc60000, 18, 1812433253>`.
-/

namespace hh

/-! ## std::mt19937 -/

namespace mt19937

/-- Modelled from the spec: word size `w` of MT19937. -/
def word_size : Nat := 32
/-- Modelled from the spec: state size `n` of MT19937. -/
def state_size : Nat := 624
/-- Modelled from the spec: shift size `m` of MT19937. -/
def shift_size : Nat := 397
/-- Modelled from the spec: mask bits `r` of MT19937. -/
def mask_bits : Nat := 31
/-- Modelled from the spec: xor mask `a` of MT19937. -/
def xor_mask : Nat := 0x9908b0df
/-- Modelled from the spec: tempering parameter `u` of MT19937. -/
def tempering_u : Nat := 11
/-- Modelled from the spec: tempering parameter `d` of MT19937. -/
def tempering_d : Nat := 0xffffffff
/-- Modelled from the spec: tempering parameter `s` of MT19937. -/
def tempering_s : Nat := 7
/-- Modelled from the spec: tempering parameter `b` of MT19937. -/
def tempering_b : Nat := 0x9d2c5680
/-- Modelled from the spec: tempering parameter `t` of MT19937. -/
def tempering_t : Nat := 15
/-- Modelled from the spec: tempering parameter `c` of MT19937. -/
def tempering_c : Nat := 0xefc60000
/-- Modelled from the spec: tempering parameter `l` of MT19937. -/
def tempering_l : Nat := 18
/-- Modelled from the spec: initialization multiplier `f` of MT19937. -/
def initialization_multiplier : Nat := 1812433253
/-- Modelled from the spec: the constant `std::mt19937::default_seed`, the
engine's canonical default seed. -/
def default_seed : Nat := 5489

end mt19937

/-- Modelled from the spec: `std::mt19937`, the engine of the C++ standard
library (not among the sources), which the spec names as MT19937 with
standard parameters.  Its state, as the C++ standard defines it, is the
sequence `X` of the last `n` values, `X_(i-n), ..., X_(i-1)`, oldest first. -/
structure mt19937 where
  X : List Nat
deriving DecidableEq

namespace mt19937

/-- Modelled from the spec: seeding of MT19937 as the C++ standard defines
it.  Values `X_(k)`, ..., following `prev = X_(k-1)` in the seeding recurrence
`X_k = (f * (X_(k-1) xor (X_(k-1) rshift (w-2))) + k mod n) mod 2^w`; `i` is
`k mod n` and `count` the number of values still to produce. -/
def seed_fill (prev i : Nat) : Nat → List Nat
  | 0 => []
  | count + 1 =>
    let x := (initialization_multiplier * (prev ^^^ (prev >>> (word_size - 2))) + i)
      % 2 ^ word_size
    x :: seed_fill x (i + 1) count

/-- Modelled from the spec: the call `e.seed(value)` of MT19937 as the C++
standard defines it: sets `X_(-n)` to `value mod 2^w` and the other
`n - 1` values by the recurrence; the previous state of `e` is overwritten. -/
def seed (_e : mt19937) (value : Nat) : mt19937 :=
  let x0 := value % 2 ^ word_size
  ⟨x0 :: seed_fill x0 1 (state_size - 1)⟩

/-- Modelled from the spec: default construction of the engine, `mt19937()`,
which is `mt19937(default_seed)`. -/
def init : mt19937 := seed ⟨[]⟩ default_seed

/-- Modelled from the spec: transition algorithm of MT19937 as the C++
standard defines it: the next value `X_i` from `X_(i-n)`, `X_(i+1-n)`
and `X_(i+m-n)`. -/
def transition (e : mt19937) : Nat :=
  let upper := (2 ^ word_size - 1) - (2 ^ mask_bits - 1)
  let lower := 2 ^ mask_bits - 1
  let Y := (e.X.getD 0 0 &&& upper) ||| (e.X.getD 1 0 &&& lower)
  let alpha := xor_mask * (Y &&& 1)
  e.X.getD shift_size 0 ^^^ (Y >>> 1) ^^^ alpha

/-- Modelled from the spec: generation algorithm (tempering) of MT19937 as
the C++ standard defines it, applied to `X_i`. -/
def temper (x : Nat) : Nat :=
  let z1 := x ^^^ ((x >>> tempering_u) &&& tempering_d)
  let z2 := z1 ^^^ (((z1 <<< tempering_s) % 2 ^ word_size) &&& tempering_b)
  let z3 := z2 ^^^ (((z2 <<< tempering_t) % 2 ^ word_size) &&& tempering_c)
  z3 ^^^ (z3 >>> tempering_l)

/-- Modelled from the spec: the call `e()` of MT19937: advances the state by
one transition and returns the tempered new value. -/
def call (e : mt19937) : Nat × mt19937 :=
  let x := transition e
  (temper x, ⟨e.X.tail ++ [x]⟩)

end mt19937

/-! ## Outcomes of a call -/

/-- Ways in which a call ends without returning a value. -/
inductive Fault where
  /-- A fatal assertion failed: the process aborts. -/
  | assertion
  /-- The call dereferenced `_impl` while it was empty. -/
  | null_impl
  /-- A loop did not finish within the number of iterations granted to it. -/
  | out_of_fuel
deriving DecidableEq

/-- Modelled from the spec: the assertion macro `ASSERTX` of libHh (declared
in Hh.h, which is not among the sources).  The spec describes the assertion
facility as `assert_fatal(condition)`: it aborts the process if `condition`
is false and is used for the precondition `bound != 0`. -/
def ASSERTX (condition : Bool) : Except Fault Unit :=
  if condition then .ok () else .error .assertion

/-! ## 32-bit unsigned arithmetic -/

/-- The value `std::numeric_limits<unsigned>::max()` for a 32-bit `unsigned`. -/
def UINT_MAX : Nat := 2 ^ 32 - 1

/-- Subtraction of `unsigned` values, wrapping modulo `2^32`. -/
def sub32 (a b : Nat) : Nat := (a + 2 ^ 32 - b) % 2 ^ 32

/-- Multiplication of `unsigned` values, wrapping modulo `2^32`. -/
def mul32 (a b : Nat) : Nat := (a * b) % 2 ^ 32

/-! ## Random::Implementation -/

/-- The class `Random::Implementation`: it owns the engine. -/
structure Implementation where
  _engine : mt19937
deriving DecidableEq

namespace Implementation

/-- The constant `k_expected_first_value`. -/
def k_expected_first_value : Nat := 3499211612

/-- Default construction, as in `make_unique<Implementation>()`: the engine
member is default-constructed. -/
def init : Implementation := ⟨mt19937.init⟩

/-- The member `seed(uint32_t seedv)`. -/
def seed (impl : Implementation) (seedv : Nat) : Implementation :=
  ⟨impl._engine.seed (seedv ^^^ mt19937.default_seed)⟩

/-- The member `uint32_t operator()()`: one engine call, the result converted
to `uint32_t`. -/
def call (impl : Implementation) : Nat × Implementation :=
  let (v, e) := impl._engine.call
  (v % 2 ^ 32, ⟨e⟩)

end Implementation

/-! ## Random -/

/-- The class `Random`: `_impl` is the `unique_ptr<Implementation>` member,
`none` while it is empty. -/
structure Random where
  _impl : Option Implementation
deriving DecidableEq

/-- The member `Random::seed(uint32_t seedv)`. -/
def Random.seed (r : Random) (seedv : Nat) : Random :=
  let impl := match r._impl with
    | none => Implementation.init
    | some impl => impl
  ⟨some (impl.seed seedv)⟩

/-- The constructor `Random::Random(uint32_t seedv)`: `_impl` starts empty
and the body calls `seed(seedv)`. -/
def Random.ctor (seedv : Nat) : Random :=
  Random.seed ⟨none⟩ seedv

/-- The specialisation `Random::get_int<uint32_t>()`. -/
def Random.get_int_uint32 (r : Random) : Except Fault (Nat × Random) :=
  match r._impl with
  | none => .error .null_impl
  | some impl =>
    let (v, impl') := impl.call
    .ok (v, ⟨some impl'⟩)

/-- The specialisation `Random::get_int<uint64_t>()`. -/
def Random.get_int_uint64 (r : Random) : Except Fault (Nat × Random) := do
  let (v, r1) ← r.get_int_uint32
  let (hi, r2) ← r1.get_int_uint32
  return (v ||| ((hi <<< 32) % 2 ^ 64), r2)

/-- The member `Random::get_unsigned()`, which is `get_int<unsigned>()`;
`unsigned` is `uint32_t`. -/
def Random.get_unsigned (r : Random) : Except Fault (Nat × Random) :=
  r.get_int_uint32

/-- The member `Random::get_uint64()`. -/
def Random.get_uint64 (r : Random) : Except Fault (Nat × Random) :=
  r.get_int_uint64

/-- The local `ub_is_pow2` of `get_unsigned(ub)`: `(ub & (ub-1)) == 0`. -/
def ub_is_pow2 (ub : Nat) : Bool := (ub &&& sub32 ub 1) == 0

/-- The local `nspans` of `get_unsigned(ub)`: number of whole spans of
length `ub`. -/
def nspans (ub : Nat) : Nat := UINT_MAX / ub

/-- The local `maxv` of `get_unsigned(ub)`: `nspans * ub` in `unsigned`. -/
def maxv (ub : Nat) : Nat := mul32 (nspans ub) ub

/-- The loop `for (;;)` of `get_unsigned(ub)`, run for at most `fuel`
iterations. -/
def Random.get_unsigned_loop (ub : Nat) : Nat → Random → Except Fault (Nat × Random)
  | 0, _ => .error .out_of_fuel
  | fuel + 1, r => do
    let (v, r') ← r.get_unsigned
    if v ≥ maxv ub then get_unsigned_loop ub fuel r'
    else return (v % ub, r')

/-- The member `Random::get_unsigned(unsigned ub)`; `fuel` bounds the number
of iterations of its loop. -/
def Random.get_unsigned_ub (r : Random) (fuel ub : Nat) : Except Fault (Nat × Random) := do
  ASSERTX (ub != 0)
  if ub_is_pow2 ub then
    let (v, r') ← r.get_unsigned
    return (v &&& sub32 ub 1, r')
  else
    Random.get_unsigned_loop ub fuel r

/-- The member `Random::discard(uint64_t count)`: `while (count--)` draws one
32-bit value and drops it. -/
def Random.discard (r : Random) (count : Nat) : Except Fault Random :=
  match count with
  | 0 => .ok r
  | count + 1 => do
    let (_, r') ← r.get_int_uint32
    Random.discard r' count

/-! ## Draw streams

Auxiliary notions used to state the properties: the stream of raw 32-bit
values an engine state yields. -/

/-- State of the implementation after `n` calls of `operator()`. -/
def Implementation.after (impl : Implementation) : Nat → Implementation
  | 0 => impl
  | n + 1 => Implementation.after impl.call.2 n

/-- The raw value `d_n`: what the call number `n` (counted from 0) of
`operator()` returns. -/
def Implementation.drawn (impl : Implementation) (n : Nat) : Nat :=
  (impl.after n).call.1

/-- Performs `k + 1` raw 32-bit draws in a row and keeps only the last
value. -/
def Random.last_of_draws (r : Random) (k : Nat) : Except Fault (Nat × Random) :=
  match k with
  | 0 => r.get_int_uint32
  | k + 1 => do
    let (_, r') ← r.get_int_uint32
    Random.last_of_draws r' k

/-! ## Floating-point values

The values of the types `float` and `double` that occur in `get_unif` and
`get_gauss` are finite binary fractions.  They are represented exactly, as
`m * 2^e`; an arithmetic is either exact or rounds the result of every
operation to a number of significand bits (IEEE 754 round-to-nearest, ties to
even).  Exponent overflow and underflow are not represented: the magnitudes
that occur in `get_unif` lie between `2^-65` and `2^64`, inside the normal
range of both binary32 and binary64. -/

/-- A finite binary fraction `m * 2^e`. -/
structure Dyadic where
  m : Int
  e : Int
deriving DecidableEq

namespace Dyadic

/-- The value of an unsigned integer. -/
def of_nat (n : Nat) : Dyadic := ⟨n, 0⟩

/-- The power `2^k`. -/
def pow2 (k : Int) : Dyadic := ⟨1, k⟩

/-- Exact product. -/
def mul (a b : Dyadic) : Dyadic := ⟨a.m * b.m, a.e + b.e⟩

/-- Exact sum. -/
def add (a b : Dyadic) : Dyadic :=
  let e := min a.e b.e
  ⟨a.m * 2 ^ (a.e - e).toNat + b.m * 2 ^ (b.e - e).toNat, e⟩

/-- Exact difference. -/
def sub (a b : Dyadic) : Dyadic :=
  let e := min a.e b.e
  ⟨a.m * 2 ^ (a.e - e).toNat - b.m * 2 ^ (b.e - e).toNat, e⟩

/-- The comparison `a <= b`. -/
def le (a b : Dyadic) : Bool := decide (0 ≤ (sub b a).m)

/-- The comparison `a == 0`. -/
def is_zero (a : Dyadic) : Bool := a.m == 0

/-- The rational number a binary fraction stands for. -/
def toRat (a : Dyadic) : ℚ := a.m * 2 ^ a.e

/-- The real number a binary fraction stands for. -/
noncomputable def toReal (a : Dyadic) : ℝ := a.m * 2 ^ a.e

/-- Number of binary digits of `n`, by halving; `fuel` bounds the number of
halvings. -/
def bit_length_aux : Nat → Nat → Nat
  | 0, _ => 0
  | fuel + 1, n => if n = 0 then 0 else bit_length_aux fuel (n / 2) + 1

/-- Number of binary digits of `n` (0 for `n = 0`). -/
def bit_length (n : Nat) : Nat := bit_length_aux n n

/-- IEEE 754 round-to-nearest, ties-to-even, to `p` significand bits. -/
def round (p : Nat) (a : Dyadic) : Dyadic :=
  let n := a.m.natAbs
  let len := bit_length n
  if len ≤ p then a
  else
    let sh := len - p
    let q := n / 2 ^ sh
    let rem := n % 2 ^ sh
    let half := 2 ^ (sh - 1)
    let q' := if rem < half then q else if half < rem then q + 1
      else if q % 2 = 0 then q else q + 1
    ⟨(if a.m < 0 then -1 else 1) * q', a.e + sh⟩

end Dyadic

/-- The arithmetic in which a floating-point expression is evaluated: exact,
or rounded to `p` significand bits after every operation. -/
inductive Arithmetic where
  | exact
  | binary (p : Nat)
deriving DecidableEq

namespace Arithmetic

/-- IEEE 754 binary32, the type `float`: 24 significand bits. -/
def binary32 : Arithmetic := .binary 24

/-- IEEE 754 binary64, the type `double`: 53 significand bits. -/
def binary64 : Arithmetic := .binary 53

/-- The rounding an arithmetic applies to the exact result of an operation. -/
def rnd : Arithmetic → Dyadic → Dyadic
  | .exact, a => a
  | .binary p, a => a.round p

end Arithmetic

/-! ## Random: uniform and Gaussian reals -/

/-- The expression `raw*unif_factor + .5*unif_factor` of `get_unif<T>`, with
`unif_factor = pow(2, -bits)`, for the raw draw `raw`, in the arithmetic
`A`: the integer is converted to `T`, then multiplied and added in `T`. -/
def get_unif_value (A : Arithmetic) (bits : Nat) (raw : Nat) : Dyadic :=
  let unif_factor := A.rnd (Dyadic.pow2 (-(bits : Int)))
  A.rnd (Dyadic.add
    (A.rnd (Dyadic.mul (A.rnd (Dyadic.of_nat raw)) unif_factor))
    (A.rnd (Dyadic.mul (A.rnd (Dyadic.pow2 (-1))) unif_factor)))

/-- The specialisation `Random::get_unif<float>()`, in the arithmetic `A`. -/
def Random.get_unif_float (A : Arithmetic) (r : Random) : Except Fault (Dyadic × Random) := do
  let (v, r') ← r.get_int_uint32
  return (get_unif_value A 32 v, r')

/-- The specialisation `Random::get_unif<double>()`, in the arithmetic `A`. -/
def Random.get_unif_double (A : Arithmetic) (r : Random) : Except Fault (Dyadic × Random) := do
  let (v, r') ← r.get_int_uint64
  return (get_unif_value A 64 v, r')

/-- The floating types `T` for which `get_unif<T>` and `get_gauss<T>` are
instantiated. -/
inductive RealType where
  | float
  | double
deriving DecidableEq

/-- The arithmetic of the type `T` itself: binary32 for `float`, binary64 for
`double`. -/
def RealType.arithmetic : RealType → Arithmetic
  | .float => Arithmetic.binary32
  | .double => Arithmetic.binary64

/-- The number of raw 32-bit draws one `get_unif<T>()` takes. -/
def RealType.raw_draws : RealType → Nat
  | .float => 1
  | .double => 2

/-- The call `get_unif<T>()`, in the arithmetic `A`. -/
def Random.get_unif (T : RealType) (A : Arithmetic) (r : Random) :
    Except Fault (Dyadic × Random) :=
  match T with
  | .float => r.get_unif_float A
  | .double => r.get_unif_double A

/-- The expression `T(2)*u - T(1)` of `get_gauss<T>`, in the arithmetic `A`:
the product is rounded, then the difference. -/
def gauss_v (A : Arithmetic) (u : Dyadic) : Dyadic :=
  A.rnd (Dyadic.sub (A.rnd (Dyadic.mul (A.rnd (Dyadic.of_nat 2)) u)) (A.rnd (Dyadic.of_nat 1)))

/-- The expression `v1*v1 + v2*v2` of `get_gauss<T>`, in the arithmetic `A`:
both squares are rounded, then the sum. -/
def gauss_s (A : Arithmetic) (v1 v2 : Dyadic) : Dyadic :=
  A.rnd (Dyadic.add (A.rnd (Dyadic.mul v1 v1)) (A.rnd (Dyadic.mul v2 v2)))

/-- The expression `T(2)*u - T(1)` of `get_gauss<T>`, in exact arithmetic. -/
def gauss_coordinate (u : Dyadic) : Dyadic :=
  gauss_v .exact u

/-- The body of the `do ... while` loop of `get_gauss<T>`, in the arithmetic
`A`: `v1` from a first uniform value, `v2` from a second one, then `s`.
Returns `(v1, v2, s)`. -/
def Random.get_gauss_attempt (T : RealType) (A : Arithmetic) (r : Random) :
    Except Fault ((Dyadic × Dyadic × Dyadic) × Random) := do
  let (u1, r1) ← r.get_unif T A
  let v1 := gauss_v A u1
  let (u2, r2) ← r1.get_unif T A
  let v2 := gauss_v A u2
  let s := gauss_s A v1 v2
  return ((v1, v2, s), r2)

/-- The `do ... while (s>=T(1) || s==T(0))` loop of `get_gauss<T>`, in the
arithmetic `A`, run for at most `fuel` iterations.  Returns `(v1, s)` of the
accepted pair. -/
def Random.get_gauss_loop (T : RealType) (A : Arithmetic) :
    Nat → Random → Except Fault ((Dyadic × Dyadic) × Random)
  | 0, _ => .error .out_of_fuel
  | fuel + 1, r => do
    let ((v1, _, s), r2) ← Random.get_gauss_attempt T A r
    if Dyadic.le (A.rnd (Dyadic.of_nat 1)) s || s.is_zero then get_gauss_loop T A fuel r2
    else return ((v1, s), r2)

/-- The template `Random::get_gauss<T>()`: the loop in the arithmetic `A`,
then `a = sqrt(T(-2)*log(s)/s)` and the result `a*v1`.  The last two
expressions are read over the real numbers (the functions `sqrt` and `log`
of `T` are not represented). -/
noncomputable def Random.get_gauss (T : RealType) (A : Arithmetic)
    (fuel : Nat) (r : Random) : Except Fault (ℝ × Random) := do
  let ((v1, s), r') ← Random.get_gauss_loop T A fuel r
  let a := Real.sqrt (-2 * Real.log s.toReal / s.toReal)
  return (a * v1.toReal, r')

/-! ## The global instance -/

/-- Modelled from the spec: the assertion `assertx` of libHh (declared in
Hh.h, which is not among the sources).  The spec describes it as
`assert_fatal(condition)`: it aborts the process if `condition` is false. -/
def assertx (condition : Bool) : Except Fault Unit :=
  if condition then .ok () else .error .assertion

/-- Modelled from the spec: the reader `getenv_int` of libHh (not among the
sources), the spec's `read_int_env(name) -> optional<int>`; `env` is the
integer the variable holds, `none` when it is not set.  An absent variable
has no effect, as a zero: it reads as 0. -/
def getenv_int (env : Option Int) : Int :=
  match env with
  | none => 0
  | some v => v

/-- Modelled from the spec: the static `Random::G` as it is constructed at
line 8 (`initialized with a default seed`): with the canonical default seed,
the seed value 0.  The default argument of the constructor is declared in
Random.h, which is not among the sources. -/
def Random.G : Random := Random.ctor 0

/-- The function `Random::g_init()`, on the global instance `G`;
`SEED_RANDOM` is the content of the environment variable.  Returns the `int`
result and the new state of `G`. -/
def Random.g_init (G : Random) (SEED_RANDOM : Option Int) : Except Fault (Int × Random) := do
  assertx G._impl.isSome
  let seedv := getenv_int SEED_RANDOM
  if seedv != 0 then
    match G._impl with
    | none => .error .null_impl
    | some impl =>
      let (v, impl') := impl.call
      assertx (v == Implementation.k_expected_first_value)
      return (0, Random.seed ⟨some impl'⟩ (seedv % 2 ^ 32).toNat)
  else
    return (0, G)

/-! ## Sequences of operations -/

/-- An operation on an engine: a raw 32-bit draw, a 64-bit draw,
`get_unsigned(ub)` or `discard(n)`. -/
inductive Op where
  | draw32
  | draw64
  | get_unsigned (ub : Nat)
  | discard (n : Nat)
deriving DecidableEq

/-- Performs one operation; the output is `none` for `discard`. -/
def Random.perform (fuel : Nat) (r : Random) : Op → Except Fault (Option Nat × Random)
  | .draw32 => do
    let (v, r') ← r.get_int_uint32
    return (some v, r')
  | .draw64 => do
    let (v, r') ← r.get_int_uint64
    return (some v, r')
  | .get_unsigned ub => do
    let (v, r') ← r.get_unsigned_ub fuel ub
    return (some v, r')
  | .discard n => do
    let r' ← r.discard n
    return (none, r')

/-- Performs a sequence of operations in order and collects the outputs. -/
def Random.run (fuel : Nat) : List Op → Random → Except Fault (List (Option Nat) × Random)
  | [], r => .ok ([], r)
  | op :: ops, r => do
    let (out, r1) ← r.perform fuel op
    let (outs, r2) ← Random.run fuel ops r1
    return (out :: outs, r2)

/-! ## Basic facts about the embedding -/

theorem Implementation.call_fst_lt (impl : Implementation) : impl.call.1 < 2 ^ 32 := by
  unfold Implementation.call
  exact Nat.mod_lt _ (by decide)

theorem Random.get_int_uint32_some (impl : Implementation) :
    Random.get_int_uint32 ⟨some impl⟩ = .ok (impl.call.1, ⟨some impl.call.2⟩) := rfl

theorem Random.get_unsigned_some (impl : Implementation) :
    Random.get_unsigned ⟨some impl⟩ = .ok (impl.call.1, ⟨some impl.call.2⟩) := rfl

theorem Random.get_int_uint32_none :
    Random.get_int_uint32 ⟨none⟩ = .error .null_impl := rfl

theorem Random.seed_eq_ctor (r : Random) (seedv : Nat) : r.seed seedv = Random.ctor seedv := by
  cases r with
  | mk impl => cases impl <;> rfl

theorem Implementation.after_succ (impl : Implementation) (n : Nat) :
    impl.after (n + 1) = (impl.after n).call.2 := by
  induction n generalizing impl with
  | zero => rfl
  | succ n ih =>
    show Implementation.after impl.call.2 (n + 1) = _
    rw [ih]
    rfl

theorem Implementation.drawn_succ (impl : Implementation) (n : Nat) :
    impl.drawn (n + 1) = impl.call.2.drawn n := rfl

theorem Implementation.after_add (impl : Implementation) (a b : Nat) :
    impl.after (a + b) = (impl.after a).after b := by
  induction a generalizing impl with
  | zero => rw [Nat.zero_add]; rfl
  | succ a ih =>
    rw [Nat.succ_add]
    exact ih impl.call.2

theorem Random.discard_some (impl : Implementation) (n : Nat) :
    Random.discard ⟨some impl⟩ n = .ok ⟨some (impl.after n)⟩ := by
  induction n generalizing impl with
  | zero => rfl
  | succ n ih => exact ih impl.call.2

theorem Random.last_of_draws_some (impl : Implementation) (n : Nat) :
    Random.last_of_draws ⟨some impl⟩ n
      = .ok (impl.drawn n, ⟨some (impl.after (n + 1))⟩) := by
  induction n generalizing impl with
  | zero => rfl
  | succ n ih => exact ih impl.call.2

theorem Random.get_unsigned_loop_lt (ub : Nat) (h0 : 0 < ub) (fuel : Nat) (r r' : Random)
    (v : Nat) (h : Random.get_unsigned_loop ub fuel r = .ok (v, r')) : v < ub := by
  induction fuel generalizing r with
  | zero => cases h
  | succ fuel ih =>
    cases r with
    | mk o =>
      cases o with
      | none => cases h
      | some impl =>
        unfold Random.get_unsigned_loop at h
        rw [Random.get_unsigned_some] at h
        by_cases hv : impl.call.1 ≥ maxv ub
        · have h2 : Random.get_unsigned_loop ub fuel ⟨some impl.call.2⟩ = .ok (v, r') := by
            simpa [bind, Except.bind, hv] using h
          exact ih _ h2
        · have h2 : impl.call.1 % ub = v := by
            have h3 := h
            simp only [bind, Except.bind, hv, if_false, pure, Except.pure] at h3
            injection h3 with h4
            exact congrArg Prod.fst h4
          rw [← h2]
          exact Nat.mod_lt _ h0

theorem or_shiftLeft_32 (lo hi : Nat) (hlo : lo < 2 ^ 32) :
    lo ||| (hi <<< 32) = 2 ^ 32 * hi + lo := by
  rw [Nat.shiftLeft_eq, Nat.mul_comm hi, Nat.or_comm]
  exact (Nat.mul_add_lt_is_or hlo hi).symm

theorem two_pow_lt_of_lt_32 (k : Nat) (hk : k < 32) : 2 ^ k < 2 ^ 32 :=
  Nat.pow_lt_pow_right (by decide) hk

theorem sub32_one (ub : Nat) (h0 : 0 < ub) (hlt : ub < 2 ^ 32) : sub32 ub 1 = ub - 1 := by
  unfold sub32
  have h : ub + 2 ^ 32 - 1 = (ub - 1) + 2 ^ 32 := by omega
  rw [h, Nat.add_mod_right, Nat.mod_eq_of_lt (by omega)]

theorem ub_is_pow2_two_pow (k : Nat) (hk : k < 32) : ub_is_pow2 (2 ^ k) = true := by
  unfold ub_is_pow2
  rw [sub32_one _ (Nat.two_pow_pos k) (two_pow_lt_of_lt_32 k hk),
    Nat.and_pow_two_sub_one_eq_mod, Nat.mod_self]
  rfl

theorem ASSERTX_ne_zero (ub : Nat) (h0 : 0 < ub) : ASSERTX (ub != 0) = .ok () := by
  have h : (ub != 0) = true := by simpa using Nat.pos_iff_ne_zero.mp h0
  simp [ASSERTX, h]

theorem testBit_of_mem_span (x k : Nat) (h1 : 2 ^ k ≤ x) (h2 : x < 2 ^ (k + 1)) :
    x.testBit k = true := by
  rw [Nat.testBit_to_div_mod]
  have hd : x / 2 ^ k = 1 := by
    apply Nat.div_eq_of_lt_le
    · rw [Nat.one_mul]; exact h1
    · rw [Nat.pow_succ] at h2; omega
  rw [hd]
  rfl

theorem and_pred_eq_zero_iff (n : Nat) (h0 : 0 < n) :
    n &&& (n - 1) = 0 ↔ ∃ k, n = 2 ^ k := by
  constructor
  · intro h
    refine ⟨n.log2, ?_⟩
    by_contra hne
    have hle : 2 ^ n.log2 ≤ n := Nat.log2_self_le (by omega)
    have hlt : n < 2 ^ (n.log2 + 1) := Nat.lt_log2_self
    have hb1 : n.testBit n.log2 = true := testBit_of_mem_span n n.log2 hle hlt
    have hb2 : (n - 1).testBit n.log2 = true :=
      testBit_of_mem_span (n - 1) n.log2 (by omega) (by omega)
    have hb : (n &&& (n - 1)).testBit n.log2 = true := by
      rw [Nat.testBit_and, hb1, hb2]
      rfl
    rw [h, Nat.zero_testBit] at hb
    cases hb
  · rintro ⟨k, rfl⟩
    rw [Nat.and_pow_two_sub_one_eq_mod, Nat.mod_self]

theorem ub_is_pow2_iff (ub : Nat) (h0 : 0 < ub) (hlt : ub < 2 ^ 32) :
    ub_is_pow2 ub = true ↔ ∃ k, ub = 2 ^ k := by
  unfold ub_is_pow2
  rw [sub32_one ub h0 hlt, beq_iff_eq]
  exact and_pred_eq_zero_iff ub h0

theorem ub_is_pow2_eq_false (ub : Nat) (h0 : 0 < ub) (hlt : ub < 2 ^ 32)
    (hnp : ¬ ∃ k, ub = 2 ^ k) : ub_is_pow2 ub = false := by
  cases hp : ub_is_pow2 ub with
  | false => rfl
  | true => exact absurd ((ub_is_pow2_iff ub h0 hlt).mp hp) hnp

theorem maxv_eq (ub : Nat) : maxv ub = (2 ^ 32 - 1) / ub * ub := by
  unfold maxv mul32 nspans UINT_MAX
  apply Nat.mod_eq_of_lt
  have h := Nat.div_mul_le_self (2 ^ 32 - 1) ub
  omega

theorem card_filter_mod_eq (ub N r : Nat) (hr : r < ub) :
    ((Finset.range (N * ub)).filter (fun v => v % ub = r)).card = N := by
  have h0 : 0 < ub := by omega
  have himg : (Finset.range (N * ub)).filter (fun v => v % ub = r)
      = (Finset.range N).image (fun q => q * ub + r) := by
    ext v
    simp only [Finset.mem_filter, Finset.mem_range, Finset.mem_image]
    constructor
    · rintro ⟨hv, hm⟩
      refine ⟨v / ub, (Nat.div_lt_iff_lt_mul h0).mpr hv, ?_⟩
      have := Nat.div_add_mod v ub
      rw [Nat.mul_comm] at this
      omega
    · rintro ⟨q, hq, rfl⟩
      constructor
      · have h1 : (q + 1) * ub ≤ N * ub := Nat.mul_le_mul_right ub hq
        rw [Nat.add_mul, Nat.one_mul] at h1
        omega
      · rw [Nat.mul_comm, Nat.mul_add_mod, Nat.mod_eq_of_lt hr]
  rw [himg, Finset.card_image_of_injective, Finset.card_range]
  intro a b hab
  have hab2 : a * ub = b * ub := by
    have : a * ub + r = b * ub + r := hab
    omega
  exact Nat.eq_of_mul_eq_mul_right h0 hab2

theorem Random.get_unsigned_loop_succ (ub : Nat) (impl : Implementation) (fuel : Nat) :
    Random.get_unsigned_loop ub (fuel + 1) ⟨some impl⟩
      = if impl.call.1 < maxv ub then .ok (impl.call.1 % ub, ⟨some impl.call.2⟩)
        else Random.get_unsigned_loop ub fuel ⟨some impl.call.2⟩ := by
  rw [Random.get_unsigned_loop, Random.get_unsigned_some]
  by_cases hv : impl.call.1 < maxv ub
  · have hv2 : ¬ impl.call.1 ≥ maxv ub := by omega
    simp only [bind, Except.bind, hv, hv2, if_true, if_false]
    rfl
  · have hv2 : impl.call.1 ≥ maxv ub := by omega
    simp only [bind, Except.bind, hv, hv2, if_true, if_false]

theorem Random.get_unsigned_ub_not_pow2 (ub : Nat) (h0 : 0 < ub) (hp : ub_is_pow2 ub = false)
    (r : Random) (fuel : Nat) :
    Random.get_unsigned_ub r fuel ub = Random.get_unsigned_loop ub fuel r := by
  unfold Random.get_unsigned_ub
  rw [ASSERTX_ne_zero _ h0, hp]
  rfl

theorem Random.get_unsigned_loop_accepts (ub : Nat) (n : Nat) :
    ∀ (impl : Implementation) (fuel : Nat), n < fuel →
      impl.drawn n < maxv ub → (∀ j, j < n → maxv ub ≤ impl.drawn j) →
      Random.get_unsigned_loop ub fuel ⟨some impl⟩
        = .ok (impl.drawn n % ub, ⟨some (impl.after (n + 1))⟩) := by
  induction n with
  | zero =>
    intro impl fuel hf hacc _
    obtain ⟨f, rfl⟩ : ∃ f, fuel = f + 1 := ⟨fuel - 1, by omega⟩
    have hacc2 : impl.call.1 < maxv ub := hacc
    rw [Random.get_unsigned_loop_succ, if_pos hacc2]
    rfl
  | succ n ih =>
    intro impl fuel hf hacc hrej
    obtain ⟨f, rfl⟩ : ∃ f, fuel = f + 1 := ⟨fuel - 1, by omega⟩
    have h0 : maxv ub ≤ impl.call.1 := hrej 0 (by omega)
    have h0n : ¬ impl.call.1 < maxv ub := by omega
    rw [Random.get_unsigned_loop_succ, if_neg h0n]
    exact ih impl.call.2 f (by omega) hacc (fun j hj => hrej (j + 1) (by omega))

theorem Random.get_unsigned_loop_pending (ub : Nat) (fuel : Nat) :
    ∀ (impl : Implementation), (∀ j, j < fuel → maxv ub ≤ impl.drawn j) →
      Random.get_unsigned_loop ub fuel ⟨some impl⟩ = .error .out_of_fuel := by
  induction fuel with
  | zero => intro impl _; rfl
  | succ f ih =>
    intro impl hrej
    have h0 : maxv ub ≤ impl.call.1 := hrej 0 (by omega)
    have h0n : ¬ impl.call.1 < maxv ub := by omega
    rw [Random.get_unsigned_loop_succ, if_neg h0n]
    exact ih impl.call.2 (fun j hj => hrej (j + 1) (by omega))

/-! ## Properties -/

/-- C1 (range bound): for every bound `0 < ub < 2^32` and every state from
which `get_unsigned(ub)` returns a value `v` (within any iteration budget),
`0 <= v < ub`; this covers the masking path and the rejection path, and for
`ub = 1` the result is 0. -/
theorem get_unsigned_range (ub : Nat) (h0 : 0 < ub) (hlt : ub < 2 ^ 32) (r r' : Random)
    (fuel v : Nat) (h : Random.get_unsigned_ub r fuel ub = .ok (v, r')) :
    0 ≤ v ∧ v < ub ∧ (ub = 1 → v = 0) := by
  have hv : v < ub := by
    unfold Random.get_unsigned_ub at h
    rw [ASSERTX_ne_zero _ h0] at h
    by_cases hp : ub_is_pow2 ub = true
    · cases r with
      | mk o =>
        cases o with
        | none => simp [hp, Random.get_unsigned, Random.get_int_uint32, bind, Except.bind] at h
        | some impl =>
          rw [Random.get_unsigned_some, sub32_one _ h0 hlt] at h
          have h2 : impl.call.1 &&& (ub - 1) = v := by
            have h3 := h
            simp only [bind, Except.bind, hp, if_true, pure, Except.pure] at h3
            injection h3 with h4
            exact congrArg Prod.fst h4
          have h5 : impl.call.1 &&& (ub - 1) ≤ ub - 1 := Nat.and_le_right
          omega
    · have h2 : Random.get_unsigned_loop ub fuel r = .ok (v, r') := by
        simpa [bind, Except.bind, hp] using h
      exact Random.get_unsigned_loop_lt ub h0 fuel r r' v h2
  exact ⟨Nat.zero_le v, hv, fun h1 => by omega⟩

set_option maxRecDepth 100000 in
/-- Witness for C1: the bound 10 on the engine seeded with 0; the first raw
draw `3499211612` is accepted and the result is 2. -/
theorem get_unsigned_range_witness :
    0 < 10 ∧ 10 < 2 ^ 32
    ∧ Random.get_unsigned_ub (Random.ctor 0) 1 10
        = .ok (2, ⟨some (Implementation.init.seed 0).call.2⟩)
    ∧ 0 ≤ 2 ∧ 2 < 10 ∧ (10 = 1 → 2 = 0) :=
  ⟨by decide, by decide, by rfl,
    get_unsigned_range 10 (by decide) (by decide) (Random.ctor 0)
      ⟨some (Implementation.init.seed 0).call.2⟩ 1 2 (by rfl)⟩

/-- C2 (no modulo bias): for every bound `0 < ub < 2^32` every result
`res < ub` comes from the same number of accepted raw 32-bit draws.  If `ub`
is a power of two, `get_unsigned(ub)` maps every raw draw `v` to
`v & (ub-1)`, and exactly `2^32 / ub` raw values in `[0, 2^32)` have image
`res`.  Otherwise, with `nspans = (2^32-1) / ub` and `maxv = nspans * ub`,
a raw draw `v` is accepted, and mapped to `v % ub`, exactly when `v < maxv`
(a draw `v >= maxv` is dropped and the loop goes on), and exactly `nspans`
raw values in `[0, maxv)` have image `res`. -/
theorem get_unsigned_no_modulo_bias (ub : Nat) (h0 : 0 < ub) (hlt : ub < 2 ^ 32)
    (res : Nat) (hres : res < ub) :
    ((∃ k, ub = 2 ^ k) →
      (∀ (impl : Implementation) (fuel : Nat),
        Random.get_unsigned_ub ⟨some impl⟩ fuel ub
          = .ok (impl.call.1 &&& (ub - 1), ⟨some impl.call.2⟩))
      ∧ ((Finset.range (2 ^ 32)).filter (fun v => v &&& (ub - 1) = res)).card = 2 ^ 32 / ub)
    ∧ ((¬ ∃ k, ub = 2 ^ k) →
      nspans ub = (2 ^ 32 - 1) / ub
      ∧ maxv ub = nspans ub * ub
      ∧ (∀ (impl : Implementation) (fuel : Nat),
          Random.get_unsigned_ub ⟨some impl⟩ (fuel + 1) ub
            = if impl.call.1 < maxv ub then .ok (impl.call.1 % ub, ⟨some impl.call.2⟩)
              else Random.get_unsigned_ub ⟨some impl.call.2⟩ fuel ub)
      ∧ ((Finset.range (maxv ub)).filter (fun v => v % ub = res)).card = nspans ub
      ∧ ((Finset.range (2 ^ 32)).filter (fun v => v < maxv ub ∧ v % ub = res)).card
          = nspans ub) := by
  constructor
  · rintro ⟨k, rfl⟩
    have hk : k < 32 := (Nat.pow_lt_pow_iff_right (by decide)).mp hlt
    constructor
    · intro impl fuel
      unfold Random.get_unsigned_ub
      rw [ASSERTX_ne_zero _ h0, ub_is_pow2_two_pow k hk, sub32_one _ h0 hlt]
      rfl
    · have e : 2 ^ 32 = 2 ^ (32 - k) * 2 ^ k := by
        rw [← Nat.pow_add]
        congr 1
        omega
      have hdiv : 2 ^ 32 / 2 ^ k = 2 ^ (32 - k) := by
        rw [e]
        exact Nat.mul_div_cancel _ (Nat.two_pow_pos k)
      rw [hdiv]
      have hf : (Finset.range (2 ^ 32)).filter (fun v => v &&& (2 ^ k - 1) = res)
          = (Finset.range (2 ^ (32 - k) * 2 ^ k)).filter (fun v => v % 2 ^ k = res) := by
        rw [← e]
        apply Finset.filter_congr
        intro v _
        rw [Nat.and_pow_two_sub_one_eq_mod]
      rw [hf]
      exact card_filter_mod_eq (2 ^ k) (2 ^ (32 - k)) res hres
  · intro hnp
    have hp := ub_is_pow2_eq_false ub h0 hlt hnp
    have hm : maxv ub = nspans ub * ub := maxv_eq ub
    have hcard : ((Finset.range (maxv ub)).filter (fun v => v % ub = res)).card = nspans ub := by
      rw [hm]
      exact card_filter_mod_eq ub (nspans ub) res hres
    refine ⟨rfl, hm, ?_, hcard, ?_⟩
    · intro impl fuel
      rw [Random.get_unsigned_ub_not_pow2 ub h0 hp, Random.get_unsigned_ub_not_pow2 ub h0 hp,
        Random.get_unsigned_loop_succ]
    · have hle : maxv ub ≤ 2 ^ 32 := by
        have h := Nat.div_mul_le_self (2 ^ 32 - 1) ub
        rw [maxv_eq]
        omega
      have hf : (Finset.range (2 ^ 32)).filter (fun v => v < maxv ub ∧ v % ub = res)
          = (Finset.range (maxv ub)).filter (fun v => v % ub = res) := by
        ext v
        simp only [Finset.mem_filter, Finset.mem_range]
        constructor
        · rintro ⟨_, h1, h2⟩
          exact ⟨h1, h2⟩
        · rintro ⟨h1, h2⟩
          exact ⟨by omega, h1, h2⟩
      rw [hf]
      exact hcard

/-- Witness for C2: the bound 6, which is not a power of two, and the
result 2. -/
theorem get_unsigned_no_modulo_bias_witness :
    0 < 6 ∧ 6 < 2 ^ 32 ∧ 2 < 6
    ∧ maxv 6 = nspans 6 * 6
    ∧ ((Finset.range (maxv 6)).filter (fun v => v % 6 = 2)).card = nspans 6 :=
  have hnp : ¬ ∃ k, 6 = 2 ^ k :=
    fun h => absurd ((ub_is_pow2_iff 6 (by decide) (by decide)).mpr h) (by decide)
  have h := (get_unsigned_no_modulo_bias 6 (by decide) (by decide) 2 (by decide)).2 hnp
  ⟨by decide, by decide, by decide, h.2.1, h.2.2.2.1⟩

set_option maxRecDepth 100000 in
/-- C3 (canonical first value): an engine constructed with seed value 0, or
reseeded with 0 from any state, feeds the MT19937 engine the seed
`0 xor 5489 = 5489`, and its first raw 32-bit draw is `3499211612`, the
constant `k_expected_first_value`. -/
theorem canonical_first_value (r : Random) :
    (0 ^^^ mt19937.default_seed = 5489)
    ∧ Random.ctor 0 = ⟨some ⟨mt19937.init.seed 5489⟩⟩
    ∧ r.seed 0 = ⟨some ⟨mt19937.init.seed 5489⟩⟩
    ∧ Prod.fst <$> (Random.ctor 0).get_int_uint32 = .ok 3499211612
    ∧ Prod.fst <$> (r.seed 0).get_int_uint32 = .ok Implementation.k_expected_first_value := by
  have hd : (Implementation.call ⟨mt19937.init.seed 5489⟩).1 = 3499211612 := by decide
  have hc : Prod.fst <$> (Random.ctor 0).get_int_uint32 = .ok 3499211612 :=
    congrArg Except.ok hd
  refine ⟨by decide, rfl, Random.seed_eq_ctor r 0, hc, ?_⟩
  rw [Random.seed_eq_ctor]
  exact hc

/-- C4 (64-bit composition): from every engine state, `get_int<uint64_t>()`
and `get_uint64()` return `lo | (hi << 32)` where `lo` is the first and `hi`
the second of two consecutive raw 32-bit draws, and leave the engine in the
state reached after those two draws; the result modulo `2^32` is the first
draw and the result divided by `2^32` is the second. -/
theorem get_int_uint64_composition (impl : Implementation) :
    Random.get_int_uint64 ⟨some impl⟩
        = .ok (impl.call.1 ||| (impl.call.2.call.1 <<< 32), ⟨some impl.call.2.call.2⟩)
    ∧ Random.get_uint64 ⟨some impl⟩
        = .ok (impl.call.1 ||| (impl.call.2.call.1 <<< 32), ⟨some impl.call.2.call.2⟩)
    ∧ Random.get_int_uint32 ⟨some impl⟩ = .ok (impl.call.1, ⟨some impl.call.2⟩)
    ∧ Random.get_int_uint32 ⟨some impl.call.2⟩
        = .ok (impl.call.2.call.1, ⟨some impl.call.2.call.2⟩)
    ∧ (impl.call.1 ||| (impl.call.2.call.1 <<< 32)) % 2 ^ 32 = impl.call.1
    ∧ (impl.call.1 ||| (impl.call.2.call.1 <<< 32)) / 2 ^ 32 = impl.call.2.call.1 := by
  have hlo := impl.call_fst_lt
  have hhi := impl.call.2.call_fst_lt
  have hsh : (impl.call.2.call.1 <<< 32) % 2 ^ 64 = impl.call.2.call.1 <<< 32 := by
    rw [Nat.shiftLeft_eq]
    apply Nat.mod_eq_of_lt
    omega
  have h64 : Random.get_int_uint64 ⟨some impl⟩
      = .ok (impl.call.1 ||| (impl.call.2.call.1 <<< 32), ⟨some impl.call.2.call.2⟩) := by
    show Except.ok (impl.call.1 ||| ((impl.call.2.call.1 <<< 32) % 2 ^ 64), _) = _
    rw [hsh]
    rfl
  refine ⟨h64, h64, rfl, rfl, ?_, ?_⟩
  · rw [or_shiftLeft_32 _ _ hlo, Nat.mul_add_mod, Nat.mod_eq_of_lt hlo]
  · rw [or_shiftLeft_32 _ _ hlo]
    omega

/-- C5 (power-of-two fast path): for `ub = 2^k` with `k` in `0..31`, from
every engine state and whatever the iteration budget, `get_unsigned(ub)`
consumes exactly one raw draw `d` and returns `d & (ub-1)`, which equals
`d % ub`; nothing is rejected. -/
theorem get_unsigned_pow2_fast_path (k : Nat) (hk : k < 32) (impl : Implementation)
    (fuel : Nat) :
    Random.get_unsigned_ub ⟨some impl⟩ fuel (2 ^ k)
        = .ok (impl.call.1 &&& (2 ^ k - 1), ⟨some impl.call.2⟩)
    ∧ impl.call.1 &&& (2 ^ k - 1) = impl.call.1 % 2 ^ k := by
  refine ⟨?_, Nat.and_pow_two_sub_one_eq_mod _ _⟩
  unfold Random.get_unsigned_ub
  rw [ASSERTX_ne_zero _ (Nat.two_pow_pos k), ub_is_pow2_two_pow k hk,
    sub32_one _ (Nat.two_pow_pos k) (two_pow_lt_of_lt_32 k hk)]
  rfl

/-- Witness for C5: the bound `8 = 2^3` on the engine seeded with 0. -/
theorem get_unsigned_pow2_fast_path_witness :
    3 < 32
    ∧ Random.get_unsigned_ub (Random.ctor 0) 0 (2 ^ 3)
        = .ok ((Implementation.init.seed 0).call.1 &&& (2 ^ 3 - 1),
            ⟨some (Implementation.init.seed 0).call.2⟩)
    ∧ (Implementation.init.seed 0).call.1 &&& (2 ^ 3 - 1)
        = (Implementation.init.seed 0).call.1 % 2 ^ 3 :=
  ⟨by decide, get_unsigned_pow2_fast_path 3 (by decide) (Implementation.init.seed 0) 0⟩

/-- C6 (rejection path): for every bound `0 < ub < 2^32` that is not a power
of two, with `limit = (2^32-1) / ub * ub`, and every engine state whose raw
draws `d_0, d_1, ...` have a least index `n` with `d_n < limit`,
`get_unsigned(ub)` returns `d_n % ub` and leaves the engine in the state
after `n + 1` draws, as soon as `n + 1` loop iterations are granted; the
draws `d_0 .. d_(n-1)` are all `>= limit` and are dropped, and with `n` or
fewer iterations the loop has not returned yet. -/
theorem get_unsigned_rejection_path (ub : Nat) (h0 : 0 < ub) (hlt : ub < 2 ^ 32)
    (hnp : ¬ ∃ k, ub = 2 ^ k) (impl : Implementation) (n : Nat)
    (hacc : impl.drawn n < (2 ^ 32 - 1) / ub * ub)
    (hrej : ∀ j, j < n → (2 ^ 32 - 1) / ub * ub ≤ impl.drawn j) :
    (∀ fuel, n < fuel →
      Random.get_unsigned_ub ⟨some impl⟩ fuel ub
        = .ok (impl.drawn n % ub, ⟨some (impl.after (n + 1))⟩))
    ∧ (∀ fuel, fuel ≤ n →
      Random.get_unsigned_ub ⟨some impl⟩ fuel ub = .error .out_of_fuel)
    ∧ Random.last_of_draws ⟨some impl⟩ n
        = .ok (impl.drawn n, ⟨some (impl.after (n + 1))⟩) := by
  have hp := ub_is_pow2_eq_false ub h0 hlt hnp
  rw [← maxv_eq] at hacc hrej
  refine ⟨?_, ?_, Random.last_of_draws_some impl n⟩
  · intro fuel hf
    rw [Random.get_unsigned_ub_not_pow2 ub h0 hp]
    exact Random.get_unsigned_loop_accepts ub n impl fuel hf hacc hrej
  · intro fuel hf
    rw [Random.get_unsigned_ub_not_pow2 ub h0 hp]
    exact Random.get_unsigned_loop_pending ub fuel impl
      (fun j hj => hrej j (by omega))

set_option maxRecDepth 100000 in
/-- Witness for C6: the bound `2^31 + 1` on the engine seeded with 0; the
first raw draw `3499211612` is rejected, the second, `581869302`, is
accepted. -/
theorem get_unsigned_rejection_path_witness :
    (Implementation.init.seed 0).drawn 0 = 3499211612
    ∧ (Implementation.init.seed 0).drawn 1 = 581869302
    ∧ Random.get_unsigned_ub (Random.ctor 0) 2 2147483649
        = .ok ((Implementation.init.seed 0).drawn 1 % 2147483649,
            ⟨some ((Implementation.init.seed 0).after 2)⟩) :=
  ⟨by decide, by decide,
    (get_unsigned_rejection_path 2147483649 (by decide) (by decide)
      (fun h => absurd ((ub_is_pow2_iff 2147483649 (by decide) (by decide)).mpr h) (by decide))
      (Implementation.init.seed 0) 1 (by decide) (by decide)).1 2 (by decide)⟩

/-- C7 (invalid bound): `get_unsigned(0)` fails with the fatal assertion from
every state and for every iteration budget; it returns no value and does not
reach the masking or the rejection code. -/
theorem get_unsigned_zero_bound (r : Random) (fuel : Nat) :
    Random.get_unsigned_ub r fuel 0 = .error .assertion := rfl

/-- C8 (discard equivalence): from every engine state and for every count
`n < 2^64`, `discard(n)` returns, and `discard(n)` followed by one raw 32-bit
draw gives the same value and the same final state as `n + 1` raw draws of
which only the last is kept, namely the draw `d_n` and the state after
`n + 1` draws; `discard(0)` leaves the state unchanged and `discard(a)`
followed by `discard(b)` equals `discard(a + b)` when `a + b < 2^64`. -/
theorem discard_equivalence (impl : Implementation) (n : Nat) (_hn : n < 2 ^ 64) :
    ((Random.discard ⟨some impl⟩ n) >>= fun r => r.get_int_uint32)
        = Random.last_of_draws ⟨some impl⟩ n
    ∧ Random.discard ⟨some impl⟩ n = .ok ⟨some (impl.after n)⟩
    ∧ Random.last_of_draws ⟨some impl⟩ n = .ok (impl.drawn n, ⟨some (impl.after (n + 1))⟩)
    ∧ Random.discard ⟨some impl⟩ 0 = .ok ⟨some impl⟩
    ∧ ∀ a b : Nat, a + b < 2 ^ 64 →
        ((Random.discard ⟨some impl⟩ a) >>= fun r => r.discard b)
          = Random.discard ⟨some impl⟩ (a + b) := by
  refine ⟨?_, Random.discard_some impl n, Random.last_of_draws_some impl n, rfl, ?_⟩
  · rw [Random.discard_some, Random.last_of_draws_some, Implementation.after_succ]
    rfl
  · intro a b _
    rw [Random.discard_some, Random.discard_some, Implementation.after_add]
    exact Random.discard_some (impl.after a) b

/-- Witness for C8: discarding 3 values from the engine seeded with 0. -/
theorem discard_equivalence_witness :
    3 < 2 ^ 64
    ∧ ((Random.discard (Random.ctor 0) 3) >>= fun r => r.get_int_uint32)
        = Random.last_of_draws (Random.ctor 0) 3 :=
  ⟨by decide, (discard_equivalence (Implementation.init.seed 0) 3 (by decide)).1⟩

/-- C9, as amended (zero seed is the engine's canonical default): seeding
with value 0, by `Random::seed(0)` from any state or by the constructor,
leaves the engine in the state of a `std::mt19937` seeded explicitly with its
constant `default_seed = 5489`, which is also the state of a
default-constructed engine; hence both yield the same output sequence.
Seeding a `Random` with the value 5489 is another thing: it feeds the engine
`5489 xor 5489 = 0`. -/
theorem zero_seed_is_default_seed (r : Random) (e : mt19937) :
    mt19937.default_seed = 5489
    ∧ r.seed 0 = ⟨some ⟨e.seed mt19937.default_seed⟩⟩
    ∧ Random.ctor 0 = ⟨some ⟨e.seed mt19937.default_seed⟩⟩
    ∧ r.seed 0 = ⟨some ⟨mt19937.init⟩⟩
    ∧ (∀ n : Nat, (r.seed 0).last_of_draws n
        = Random.last_of_draws ⟨some ⟨e.seed mt19937.default_seed⟩⟩ n)
    ∧ r.seed 5489 = ⟨some ⟨e.seed 0⟩⟩
    ∧ Random.ctor 5489 = ⟨some ⟨e.seed 0⟩⟩ := by
  have h : r.seed 0 = ⟨some ⟨e.seed mt19937.default_seed⟩⟩ := Random.seed_eq_ctor r 0
  refine ⟨rfl, h, rfl, Random.seed_eq_ctor r 0, ?_, Random.seed_eq_ctor r 5489, rfl⟩
  intro n
  rw [h]

set_option maxRecDepth 100000 in
/-- Counterexample for C9 as worded: a `Random` seeded with value 0 and a
`Random` seeded explicitly with the engine's default-seed constant 5489 are
not in the same state, neither by the constructor nor by `seed`, and their
first raw draws differ: `3499211612` against `2357136044`. -/
theorem zero_seed_differs_from_seed_5489 :
    Random.ctor 0 ≠ Random.ctor 5489
    ∧ Random.seed (Random.ctor 42) 0 ≠ Random.seed (Random.ctor 42) 5489
    ∧ Prod.fst <$> (Random.ctor 0).get_int_uint32 = .ok 3499211612
    ∧ Prod.fst <$> (Random.ctor 5489).get_int_uint32 = .ok 2357136044 := by
  have h0 : (Implementation.init.seed 0).call.1 = 3499211612 := by decide
  have h1 : (Implementation.init.seed 5489).call.1 = 2357136044 := by decide
  have hne : Random.ctor 0 ≠ Random.ctor 5489 := by
    intro h
    have h2 : (Implementation.init.seed 0).call.1 = (Implementation.init.seed 5489).call.1 :=
      congrArg (fun x : Random => match x._impl with
        | some impl => impl.call.1
        | none => 0) h
    rw [h0, h1] at h2
    exact absurd h2 (by decide)
  refine ⟨hne, ?_, congrArg Except.ok h0, congrArg Except.ok h1⟩
  rw [Random.seed_eq_ctor, Random.seed_eq_ctor]
  exact hne

/-- C10 (reseeding discards all prior state): from every state, `seed(v)`
leaves the engine in exactly the state of a freshly constructed `Random(v)`;
so `seed(v)` is idempotent, and the state after `seed(v)`, hence every later
output, is the same whatever the state before. -/
theorem seed_discards_prior_state (r r2 : Random) (v : Nat) :
    r.seed v = Random.ctor v
    ∧ (r.seed v).seed v = r.seed v
    ∧ r.seed v = r2.seed v
    ∧ ∀ n : Nat, (r.seed v).last_of_draws n = (r2.seed v).last_of_draws n := by
  have h1 := Random.seed_eq_ctor r v
  have h2 := Random.seed_eq_ctor r2 v
  refine ⟨h1, ?_, ?_, ?_⟩
  · rw [Random.seed_eq_ctor, h1]
  · rw [h1, h2]
  · intro n
    rw [h1, h2]

/-! ## Facts about binary fractions -/

theorem Dyadic.two_pow_toNat_mul (x e : Int) (h : e ≤ x) :
    (2 : ℚ) ^ (x - e).toNat * (2 : ℚ) ^ e = (2 : ℚ) ^ x := by
  have h1 : ((x - e).toNat : Int) = x - e := Int.toNat_of_nonneg (by omega)
  rw [← zpow_natCast, h1, ← zpow_add₀ (by norm_num : (2 : ℚ) ≠ 0)]
  congr 1
  omega

theorem Dyadic.toRat_mul (a b : Dyadic) : (Dyadic.mul a b).toRat = a.toRat * b.toRat := by
  unfold Dyadic.mul Dyadic.toRat
  simp only []
  rw [zpow_add₀ (by norm_num : (2 : ℚ) ≠ 0)]
  push_cast
  ring

theorem Dyadic.toRat_add (a b : Dyadic) : (Dyadic.add a b).toRat = a.toRat + b.toRat := by
  unfold Dyadic.add Dyadic.toRat
  simp only []
  have ha := Dyadic.two_pow_toNat_mul a.e (min a.e b.e) (min_le_left _ _)
  have hb := Dyadic.two_pow_toNat_mul b.e (min a.e b.e) (min_le_right _ _)
  push_cast
  rw [add_mul, mul_assoc, mul_assoc, ha, hb]

theorem Dyadic.toRat_sub (a b : Dyadic) : (Dyadic.sub a b).toRat = a.toRat - b.toRat := by
  unfold Dyadic.sub Dyadic.toRat
  simp only []
  have ha := Dyadic.two_pow_toNat_mul a.e (min a.e b.e) (min_le_left _ _)
  have hb := Dyadic.two_pow_toNat_mul b.e (min a.e b.e) (min_le_right _ _)
  push_cast
  rw [sub_mul, mul_assoc, mul_assoc, ha, hb]

theorem Dyadic.toRat_of_nat (n : Nat) : (Dyadic.of_nat n).toRat = n := by
  simp [Dyadic.of_nat, Dyadic.toRat]

theorem Dyadic.toRat_nonneg_iff (a : Dyadic) : 0 ≤ a.toRat ↔ 0 ≤ a.m := by
  unfold Dyadic.toRat
  have hp : (0 : ℚ) < 2 ^ a.e := zpow_pos (by norm_num) _
  constructor
  · intro h
    by_contra hneg
    have hm : (a.m : ℚ) < 0 := by exact_mod_cast (by omega : a.m < 0)
    have := mul_neg_of_neg_of_pos hm hp
    linarith
  · intro h
    have hm : (0 : ℚ) ≤ a.m := by exact_mod_cast h
    exact mul_nonneg hm hp.le

theorem Dyadic.toRat_eq_zero_iff (a : Dyadic) : a.toRat = 0 ↔ a.m = 0 := by
  unfold Dyadic.toRat
  have hp : (2 : ℚ) ^ a.e ≠ 0 := zpow_ne_zero _ (by norm_num)
  constructor
  · intro h
    rcases mul_eq_zero.mp h with h1 | h1
    · exact_mod_cast h1
    · exact absurd h1 hp
  · intro h
    rw [h]
    simp

theorem Dyadic.le_iff (a b : Dyadic) : Dyadic.le a b = true ↔ a.toRat ≤ b.toRat := by
  unfold Dyadic.le
  rw [decide_eq_true_iff, ← Dyadic.toRat_nonneg_iff, Dyadic.toRat_sub]
  constructor <;> intro h <;> linarith

theorem Dyadic.is_zero_iff (a : Dyadic) : a.is_zero = true ↔ a.toRat = 0 := by
  unfold Dyadic.is_zero
  rw [beq_iff_eq, Dyadic.toRat_eq_zero_iff]

theorem Dyadic.toReal_eq (a : Dyadic) : a.toReal = ((a.toRat : ℚ) : ℝ) := by
  unfold Dyadic.toReal Dyadic.toRat
  push_cast
  rfl

theorem gauss_coordinate_toRat (u : Dyadic) : (gauss_coordinate u).toRat = 2 * u.toRat - 1 := by
  unfold gauss_coordinate gauss_v
  simp only [Arithmetic.rnd]
  rw [Dyadic.toRat_sub, Dyadic.toRat_mul, Dyadic.toRat_of_nat, Dyadic.toRat_of_nat]
  norm_num

/-! ## Facts about the global instance -/

theorem Random.g_init_check (impl : Implementation) (s : Int) (hs : s ≠ 0) :
    Random.g_init ⟨some impl⟩ (some s)
      = if impl.call.1 = Implementation.k_expected_first_value
        then .ok (0, Random.ctor (s % 2 ^ 32).toNat) else .error .assertion := by
  have hb : (s != 0) = true := by simpa using hs
  unfold Random.g_init
  simp only [getenv_int, hb, if_true]
  by_cases hv : impl.call.1 = Implementation.k_expected_first_value
  · have hv2 : (impl.call.1 == Implementation.k_expected_first_value) = true := by
      simpa using hv
    rw [if_pos hv]
    simp only [assertx, Option.isSome, bind, Except.bind, hv2, if_true, pure, Except.pure]
    rw [Random.seed_eq_ctor]
  · have hv2 : (impl.call.1 == Implementation.k_expected_first_value) = false := by
      simpa using hv
    rw [if_neg hv]
    simp [assertx, Option.isSome, bind, Except.bind, hv2]

theorem Random.g_init_no_override (impl : Implementation) (env : Option Int)
    (h : env = none ∨ env = some 0) :
    Random.g_init ⟨some impl⟩ env = .ok (0, ⟨some impl⟩) := by
  rcases h with h | h <;> subst h <;> rfl

set_option maxRecDepth 100000 in
theorem Random.G_first_draw :
    (Implementation.init.seed 0).call.1 = Implementation.k_expected_first_value := by
  decide

theorem Random.G_eq : Random.G = ⟨some (Implementation.init.seed 0)⟩ := rfl

set_option maxRecDepth 100000 in
theorem Random.G_first_draw_ok :
    Prod.fst <$> Random.get_int_uint32 Random.G = .ok 3499211612 :=
  congrArg Except.ok Random.G_first_draw

theorem Random.g_init_G (s : Int) (hs : s ≠ 0) :
    Random.g_init Random.G (some s) = .ok (0, Random.ctor (s % 2 ^ 32).toNat) := by
  have hG := Random.g_init_check (Implementation.init.seed 0) s hs
  rw [if_pos Random.G_first_draw] at hG
  exact hG

/-! ## Properties of the real-valued samplers and of the global instance -/

set_option maxRecDepth 100000 in
/-- C11 (uniform-real bounds), evaluated where it fails: computed in binary32
as written, `get_unif<float>` gives exactly 1 for the raw draw `2^32 - 1`, and
for each of the 128 largest raw draws, because the conversion of the draw to
`float` rounds up to `2^32`; computed in binary64, `get_unif<double>` gives
exactly 1 for the 64-bit draw `2^64 - 1`.  The engine constructed with seed
14779133 has the first raw draw 4294967279, so its first
`get_unif<float>()` returns exactly 1. -/
theorem get_unif_reaches_one :
    (get_unif_value .binary32 32 (2 ^ 32 - 1)).toRat = 1
    ∧ (∀ k, k < 128 → get_unif_value .binary32 32 (2 ^ 32 - 1 - k) = ⟨8388608, -23⟩)
    ∧ (get_unif_value .binary64 64 (2 ^ 64 - 1)).toRat = 1
    ∧ Prod.fst <$> (Random.ctor 14779133).get_int_uint32 = .ok 4294967279
    ∧ Prod.fst <$> (Random.ctor 14779133).get_unif_float .binary32 = .ok ⟨8388608, -23⟩
    ∧ (⟨8388608, -23⟩ : Dyadic).toRat = 1 := by
  have h1 : (⟨8388608, -23⟩ : Dyadic).toRat = 1 := by norm_num [Dyadic.toRat]
  have h32 : get_unif_value .binary32 32 (2 ^ 32 - 1) = ⟨8388608, -23⟩ := by decide
  have h64 : get_unif_value .binary64 64 (2 ^ 64 - 1) = ⟨4503599627370496, -52⟩ := by decide
  have hd : (Implementation.init.seed 14779133).call.1 = 4294967279 := by decide
  refine ⟨by rw [h32, h1], by decide, ?_, congrArg Except.ok hd, ?_, h1⟩
  · rw [h64]
    norm_num [Dyadic.toRat]
  · show Except.ok (get_unif_value .binary32 32 (Implementation.init.seed 14779133).call.1) = _
    rw [hd]
    exact congrArg Except.ok (by decide)

/-- C12 (pristine check of the global instance): with a non-zero override
`s`, `g_init` takes one raw 32-bit value from `G` and aborts on the fatal
assertion if and only if that value differs from `3499211612`; on the
default-constructed `G` (seed 0, nothing drawn) the first raw value is
`3499211612`, the check passes and `g_init` returns. -/
theorem g_init_pristine_check (impl : Implementation) (s : Int) (hs : s ≠ 0) :
    (Random.g_init ⟨some impl⟩ (some s) = .error .assertion ↔ impl.call.1 ≠ 3499211612)
    ∧ (impl.call.1 = 3499211612 →
        ∃ G', Random.g_init ⟨some impl⟩ (some s) = .ok (0, G'))
    ∧ Prod.fst <$> Random.get_int_uint32 Random.G = .ok 3499211612
    ∧ Random.g_init Random.G (some s) ≠ .error .assertion
    ∧ ∃ G', Random.g_init Random.G (some s) = .ok (0, G') := by
  have hc := Random.g_init_check impl s hs
  have hG := Random.g_init_G s hs
  refine ⟨?_, ?_, Random.G_first_draw_ok, ?_, ⟨_, hG⟩⟩
  · by_cases hv : impl.call.1 = Implementation.k_expected_first_value
    · rw [hc, if_pos hv]
      constructor
      · intro h
        cases h
      · intro h
        exact absurd hv h
    · rw [hc, if_neg hv]
      exact ⟨fun _ => hv, fun _ => rfl⟩
  · intro hv
    have hv2 : impl.call.1 = Implementation.k_expected_first_value := hv
    rw [hc, if_pos hv2]
    exact ⟨_, rfl⟩
  · rw [hG]
    intro h
    cases h

/-- Witness for C12: the override 42 on the default-constructed `G`. -/
theorem g_init_pristine_check_witness :
    (42 : Int) ≠ 0
    ∧ Random.g_init Random.G (some 42) ≠ .error .assertion :=
  ⟨by decide, (g_init_pristine_check (Implementation.init.seed 0) 42 (by decide)).2.2.2.1⟩

/-- C13 (result of the reseed): with a non-zero override `s`, when the
check passes, `g_init` leaves `G` in exactly the state of a freshly
constructed `Random(s mod 2^32)`; the value drawn for the check leaves no
trace.  This holds in particular for the default-constructed `G`. -/
theorem g_init_reseeds (impl : Implementation) (s : Int) (hs : s ≠ 0)
    (hv : impl.call.1 = 3499211612) :
    Random.g_init ⟨some impl⟩ (some s) = .ok (0, Random.ctor (s % 2 ^ 32).toNat)
    ∧ Random.g_init Random.G (some s) = .ok (0, Random.ctor (s % 2 ^ 32).toNat)
    ∧ ∀ n : Nat, (Random.ctor (s % 2 ^ 32).toNat).last_of_draws n
        = (Random.seed ⟨some impl.call.2⟩ (s % 2 ^ 32).toNat).last_of_draws n := by
  have hc := Random.g_init_check impl s hs
  have hG := Random.g_init_G s hs
  have hv2 : impl.call.1 = Implementation.k_expected_first_value := hv
  rw [if_pos hv2] at hc
  refine ⟨hc, hG, ?_⟩
  intro n
  rw [Random.seed_eq_ctor]

set_option maxRecDepth 100000 in
/-- Witness for C13: the override `-1` on the default-constructed `G`
reseeds it as `Random(4294967295)`. -/
theorem g_init_reseeds_witness :
    (-1 : Int) ≠ 0
    ∧ (Implementation.init.seed 0).call.1 = 3499211612
    ∧ Random.g_init Random.G (some (-1)) = .ok (0, Random.ctor 4294967295) :=
  ⟨by decide, by decide,
    (g_init_reseeds (Implementation.init.seed 0) (-1) (by decide) (by decide)).1⟩

/-- C14 (no override, no effect): when `SEED_RANDOM` is absent or reads as
zero, `g_init` returns 0 and leaves the state of `G` unchanged, from every
state with an engine; no value is drawn and nothing is reseeded, so the
first raw draw of the default-constructed `G` is still `3499211612`. -/
theorem g_init_without_override (impl : Implementation) :
    Random.g_init ⟨some impl⟩ none = .ok (0, ⟨some impl⟩)
    ∧ Random.g_init ⟨some impl⟩ (some 0) = .ok (0, ⟨some impl⟩)
    ∧ Random.g_init Random.G none = .ok (0, Random.G)
    ∧ Random.g_init Random.G (some 0) = .ok (0, Random.G)
    ∧ Prod.fst <$> Random.get_int_uint32 Random.G = .ok 3499211612 :=
  ⟨Random.g_init_no_override impl none (Or.inl rfl),
    Random.g_init_no_override impl (some 0) (Or.inr rfl),
    Random.g_init_no_override _ none (Or.inl rfl),
    Random.g_init_no_override _ (some 0) (Or.inr rfl),
    Random.G_first_draw_ok⟩

/-- C15 (determinism): for every seed `s`, engines seeded with `s`, whatever
their state before, yield the same `n` raw 32-bit draws; more generally, for
every sequence of operations (32-bit draw, 64-bit draw, `get_unsigned(ub)`,
`discard(n)`) the outputs and the final state are those of a fresh
`Random(s)`: they depend on the seed and on the operations only. -/
theorem seeded_runs_are_determined (s : Nat) (a b : Random) (fuel : Nat) (ops : List Op)
    (n : Nat) :
    Random.run fuel (List.replicate n Op.draw32) (a.seed s)
        = Random.run fuel (List.replicate n Op.draw32) (b.seed s)
    ∧ Random.run fuel ops (a.seed s) = Random.run fuel ops (b.seed s)
    ∧ Random.run fuel ops (a.seed s) = Random.run fuel ops (Random.ctor s) := by
  rw [Random.seed_eq_ctor a s, Random.seed_eq_ctor b s]
  exact ⟨rfl, rfl, rfl⟩

/-! ## Facts about the rejection bound and the seed mapping -/

theorem not_dvd_two_pow_of_not_pow2 (ub n : Nat) (hnp : ¬ ∃ k, ub = 2 ^ k) : ¬ ub ∣ 2 ^ n := by
  intro h
  obtain ⟨m, _, hm⟩ := (Nat.dvd_prime_pow Nat.prime_two).mp h
  exact hnp ⟨m, hm⟩

theorem div_pred_two_pow_32 (ub : Nat) (hnp : ¬ ∃ k, ub = 2 ^ k) :
    (2 ^ 32 - 1) / ub = 2 ^ 32 / ub := by
  have h := Nat.succ_div (2 ^ 32 - 1) ub
  have hs : 2 ^ 32 - 1 + 1 = 2 ^ 32 := by norm_num
  rw [hs, if_neg (not_dvd_two_pow_of_not_pow2 ub 32 hnp), Nat.add_zero] at h
  exact h.symm

theorem maxv_add_mod (ub : Nat) (hnp : ¬ ∃ k, ub = 2 ^ k) :
    maxv ub + 2 ^ 32 % ub = 2 ^ 32 := by
  rw [maxv_eq, div_pred_two_pow_32 ub hnp]
  exact Nat.div_add_mod' (2 ^ 32) ub

theorem maxv_gt_half (ub : Nat) (h0 : 0 < ub) (hlt : ub < 2 ^ 32)
    (hnp : ¬ ∃ k, ub = 2 ^ k) : 2 ^ 31 < maxv ub := by
  have hsum := maxv_add_mod ub hnp
  have hmod : 2 ^ 32 % ub < ub := Nat.mod_lt _ h0
  have hne : ub ≠ 2 ^ 31 := fun h => hnp ⟨31, h⟩
  by_cases hsmall : ub < 2 ^ 31
  · omega
  · have hq : 2 ^ 32 / ub = 1 := by
      apply Nat.div_eq_of_lt_le
      · omega
      · omega
    have hm : maxv ub = ub := by
      rw [maxv_eq, div_pred_two_pow_32 ub hnp, hq, Nat.one_mul]
    omega

theorem xor_default_seed_lt (v : Nat) (hv : v < 2 ^ 32) :
    v ^^^ mt19937.default_seed < 2 ^ 32 :=
  Nat.xor_lt_two_pow hv (by decide)

theorem xor_xor_default_seed (v : Nat) :
    (v ^^^ mt19937.default_seed) ^^^ mt19937.default_seed = v := by
  rw [Nat.xor_assoc, Nat.xor_self, Nat.xor_zero]

theorem xor_default_seed_injective (v w : Nat)
    (h : v ^^^ mt19937.default_seed = w ^^^ mt19937.default_seed) : v = w := by
  rw [← xor_xor_default_seed v, h, xor_xor_default_seed]

/-- C17 (bounded rejection rate): for every bound `0 < ub < 2^32` that is not
a power of two, the acceptance limit `maxv = (2^32-1)/ub * ub` exceeds
`2^31`, so more than half of the `2^32` raw values are accepted at each draw
and the expected number of draws `2^32 / maxv` is below 2; for a
power-of-two bound exactly one draw is made, whatever the iteration
budget. -/
theorem rejection_rate_bounded (ub : Nat) (h0 : 0 < ub) (hlt : ub < 2 ^ 32)
    (hnp : ¬ ∃ k, ub = 2 ^ k) :
    maxv ub = (2 ^ 32 - 1) / ub * ub
    ∧ 2 ^ 31 < maxv ub
    ∧ ((Finset.range (2 ^ 32)).filter (fun v => v < maxv ub)).card = maxv ub
    ∧ 2 * ((Finset.range (2 ^ 32)).filter (fun v => v < maxv ub)).card > 2 ^ 32
    ∧ ((2 : ℚ) ^ 32 / (maxv ub : ℚ) < 2)
    ∧ ∀ (k : Nat) (impl : Implementation) (fuel : Nat), k < 32 →
        Random.get_unsigned_ub ⟨some impl⟩ fuel (2 ^ k)
          = .ok (impl.call.1 &&& (2 ^ k - 1), ⟨some impl.call.2⟩) := by
  have hgt := maxv_gt_half ub h0 hlt hnp
  have hle : maxv ub ≤ 2 ^ 32 := by
    have := maxv_add_mod ub hnp
    omega
  have hcard : ((Finset.range (2 ^ 32)).filter (fun v => v < maxv ub)).card = maxv ub := by
    have hf : (Finset.range (2 ^ 32)).filter (fun v => v < maxv ub)
        = Finset.range (maxv ub) := by
      ext v
      simp only [Finset.mem_filter, Finset.mem_range]
      constructor
      · rintro ⟨_, h⟩
        exact h
      · intro h
        exact ⟨by omega, h⟩
    rw [hf, Finset.card_range]
  refine ⟨maxv_eq ub, hgt, hcard, ?_, ?_, ?_⟩
  · rw [hcard]
    omega
  · have hpos : (0 : ℚ) < (maxv ub : ℚ) := by
      have : 0 < maxv ub := by omega
      exact_mod_cast this
    rw [div_lt_iff₀ hpos]
    have h2 : (2 : ℚ) ^ 31 < (maxv ub : ℚ) := by exact_mod_cast hgt
    linarith
  · intro k impl fuel hk
    unfold Random.get_unsigned_ub
    rw [ASSERTX_ne_zero _ (Nat.two_pow_pos k), ub_is_pow2_two_pow k hk,
      sub32_one _ (Nat.two_pow_pos k) (two_pow_lt_of_lt_32 k hk)]
    rfl

/-- Witness for C17: the bound 3, whose limit is `4294967295`. -/
theorem rejection_rate_bounded_witness :
    0 < 3 ∧ 3 < 2 ^ 32 ∧ 2 ^ 31 < maxv 3 :=
  ⟨by decide, by decide,
    (rejection_rate_bounded 3 (by decide) (by decide)
      (fun h => absurd ((ub_is_pow2_iff 3 (by decide) (by decide)).mpr h) (by decide))).2.1⟩

/-- C19 (seed mapping): for every 32-bit seed value `v`, `Random::seed(v)`
seeds the MT19937 engine with `v xor 5489`, which differs from `v` (also when
`v != 0`); the map `v -> v xor 5489` sends 32-bit values to 32-bit values, is
its own inverse and hence a bijection, so distinct seed values give distinct
engine seeds; the engine gets the literal seed 0 exactly for `v = 5489` and
the canonical default 5489 exactly for `v = 0`. -/
theorem seed_mapping (v : Nat) (hv : v < 2 ^ 32) (r : Random) (impl : Implementation) :
    mt19937.default_seed = 5489
    ∧ Implementation.seed impl v = ⟨impl._engine.seed (v ^^^ 5489)⟩
    ∧ r.seed v = ⟨some ⟨mt19937.init.seed (v ^^^ 5489)⟩⟩
    ∧ v ^^^ 5489 ≠ v
    ∧ v ^^^ 5489 < 2 ^ 32
    ∧ (v ^^^ 5489) ^^^ 5489 = v
    ∧ (∀ w : Nat, w < 2 ^ 32 → v ^^^ 5489 = w ^^^ 5489 → v = w)
    ∧ (∃ w : Nat, w < 2 ^ 32 ∧ w ^^^ 5489 = v)
    ∧ (v ^^^ 5489 = 0 ↔ v = 5489)
    ∧ (v ^^^ 5489 = 5489 ↔ v = 0) := by
  refine ⟨rfl, rfl, Random.seed_eq_ctor r v, ?_, xor_default_seed_lt v hv,
    xor_xor_default_seed v, fun w _ h => xor_default_seed_injective v w h,
    ⟨v ^^^ 5489, xor_default_seed_lt v hv, xor_xor_default_seed v⟩, ?_, ?_⟩
  · intro h
    have h2 : (v ^^^ 5489) ^^^ v = v ^^^ v := by rw [h]
    rw [Nat.xor_comm v 5489, Nat.xor_assoc, Nat.xor_self, Nat.xor_zero] at h2
    exact absurd h2 (by decide)
  · constructor
    · intro h
      have h2 := xor_xor_default_seed v
      rw [show mt19937.default_seed = 5489 from rfl, h] at h2
      rw [← h2]
      decide
    · intro h
      rw [h]
      decide
  · constructor
    · intro h
      have h2 := xor_xor_default_seed v
      rw [show mt19937.default_seed = 5489 from rfl, h] at h2
      rw [← h2]
      decide
    · intro h
      rw [h]
      decide

/-- Witness for C19: the seed value 42 is fed to the engine as
`42 xor 5489 = 5467`. -/
theorem seed_mapping_witness :
    42 < 2 ^ 32
    ∧ Random.ctor 42 = ⟨some ⟨mt19937.init.seed 5467⟩⟩
    ∧ (42 ^^^ 5489 = 5489 ↔ 42 = 0) :=
  have h := seed_mapping 42 (by decide) (Random.ctor 42) Implementation.init
  ⟨by decide, h.2.2.1, h.2.2.2.2.2.2.2.2.2⟩

/-- C20 (minimal rejection region without overflow): for every bound
`0 < ub < 2^32` that is not a power of two, with `nspans = (2^32-1)/ub`, the
product `nspans * ub` is below `2^32`, so the 32-bit multiplication does not
wrap; `(2^32-1)/ub = 2^32/ub` and `maxv = nspans * ub` is the largest
multiple of `ub` not exceeding `2^32`; the number of rejected raw values is
`2^32 - maxv = 2^32 mod ub`, which is less than `ub`. -/
theorem rejection_region_minimal (ub : Nat) (h0 : 0 < ub) (_hlt : ub < 2 ^ 32)
    (hnp : ¬ ∃ k, ub = 2 ^ k) :
    nspans ub = (2 ^ 32 - 1) / ub
    ∧ nspans ub * ub < 2 ^ 32
    ∧ maxv ub = nspans ub * ub
    ∧ (2 ^ 32 - 1) / ub = 2 ^ 32 / ub
    ∧ ub ∣ maxv ub
    ∧ maxv ub ≤ 2 ^ 32
    ∧ (∀ m : Nat, ub ∣ m → m ≤ 2 ^ 32 → m ≤ maxv ub)
    ∧ 2 ^ 32 - maxv ub = 2 ^ 32 % ub
    ∧ 2 ^ 32 % ub < ub
    ∧ ((Finset.range (2 ^ 32)).filter (fun v => maxv ub ≤ v)).card = 2 ^ 32 % ub := by
  have hm : maxv ub = nspans ub * ub := maxv_eq ub
  have hsum := maxv_add_mod ub hnp
  have hmod : 2 ^ 32 % ub < ub := Nat.mod_lt _ h0
  have hle : maxv ub ≤ 2 ^ 32 := by omega
  have hlt2 : nspans ub * ub < 2 ^ 32 := by
    have := Nat.div_mul_le_self (2 ^ 32 - 1) ub
    show (2 ^ 32 - 1) / ub * ub < 2 ^ 32
    omega
  refine ⟨rfl, hlt2, hm, div_pred_two_pow_32 ub hnp, ⟨nspans ub, by rw [hm, Nat.mul_comm]⟩,
    hle, ?_, by omega, hmod, ?_⟩
  · rintro m ⟨c, rfl⟩ hmle
    have hc : c ≤ 2 ^ 32 / ub := by
      apply (Nat.le_div_iff_mul_le h0).mpr
      rw [Nat.mul_comm]
      exact hmle
    rw [maxv_eq, div_pred_two_pow_32 ub hnp, Nat.mul_comm ub c]
    exact Nat.mul_le_mul_right ub hc
  · have hf : (Finset.range (2 ^ 32)).filter (fun v => maxv ub ≤ v)
        = Finset.Ico (maxv ub) (2 ^ 32) := by
      ext v
      simp only [Finset.mem_filter, Finset.mem_range, Finset.mem_Ico]
      constructor
      · rintro ⟨h1, h2⟩
        exact ⟨h2, h1⟩
      · rintro ⟨h1, h2⟩
        exact ⟨h2, h1⟩
    rw [hf, Nat.card_Ico]
    omega

/-- Witness for C20: the bound 6; `maxv 6 = 4294967292` and 4 raw values
are rejected. -/
theorem rejection_region_minimal_witness :
    0 < 6 ∧ 6 < 2 ^ 32 ∧ nspans 6 * 6 < 2 ^ 32 ∧ 2 ^ 32 - maxv 6 = 2 ^ 32 % 6 :=
  have h := rejection_region_minimal 6 (by decide) (by decide)
    (fun h => absurd ((ub_is_pow2_iff 6 (by decide) (by decide)).mpr h) (by decide))
  ⟨by decide, by decide, h.2.1, h.2.2.2.2.2.2.2.1⟩

/-! ## Facts about the uniform values in exact arithmetic -/

theorem Random.get_unif_float_some (A : Arithmetic) (impl : Implementation) :
    Random.get_unif_float A ⟨some impl⟩
      = .ok (get_unif_value A 32 impl.call.1, ⟨some impl.call.2⟩) := rfl

theorem Random.get_int_uint64_some (impl : Implementation) :
    Random.get_int_uint64 ⟨some impl⟩
      = .ok (impl.call.1 ||| (impl.call.2.call.1 <<< 32), ⟨some impl.call.2.call.2⟩) := by
  have hhi := impl.call.2.call_fst_lt
  have hsh : (impl.call.2.call.1 <<< 32) % 2 ^ 64 = impl.call.2.call.1 <<< 32 := by
    rw [Nat.shiftLeft_eq]
    apply Nat.mod_eq_of_lt
    omega
  show Except.ok (impl.call.1 ||| ((impl.call.2.call.1 <<< 32) % 2 ^ 64), _) = _
  rw [hsh]
  rfl

theorem Random.get_unif_double_some (A : Arithmetic) (impl : Implementation) :
    Random.get_unif_double A ⟨some impl⟩
      = .ok (get_unif_value A 64 (impl.call.1 ||| (impl.call.2.call.1 <<< 32)),
          ⟨some impl.call.2.call.2⟩) := by
  unfold Random.get_unif_double
  rw [Random.get_int_uint64_some]
  rfl

theorem Random.get_unif_some (T : RealType) (A : Arithmetic) (impl : Implementation) :
    ∃ u : Dyadic, Random.get_unif T A ⟨some impl⟩
      = .ok (u, ⟨some (impl.after T.raw_draws)⟩) := by
  cases T with
  | float => exact ⟨_, Random.get_unif_float_some A impl⟩
  | double => exact ⟨_, Random.get_unif_double_some A impl⟩

theorem Dyadic.toReal_nonneg_iff (a : Dyadic) : 0 ≤ a.toReal ↔ 0 ≤ a.m := by
  rw [Dyadic.toReal_eq, ← Dyadic.toRat_nonneg_iff]
  constructor
  · intro h
    exact_mod_cast h
  · intro h
    exact_mod_cast h

theorem Dyadic.round_m_nonneg (p : Nat) (a : Dyadic) (h : 0 ≤ a.m) : 0 ≤ (a.round p).m := by
  unfold Dyadic.round
  simp only []
  split
  · exact h
  · have hn : ¬ a.m < 0 := by omega
    rw [if_neg hn, one_mul]
    exact Int.natCast_nonneg _

theorem Arithmetic.rnd_m_nonneg (A : Arithmetic) (a : Dyadic) (h : 0 ≤ a.m) :
    0 ≤ (A.rnd a).m := by
  cases A with
  | exact => exact h
  | binary p => exact Dyadic.round_m_nonneg p a h

theorem gauss_s_toReal_nonneg (A : Arithmetic) (v1 v2 : Dyadic) :
    0 ≤ (gauss_s A v1 v2).toReal := by
  rw [Dyadic.toReal_nonneg_iff]
  unfold gauss_s
  apply Arithmetic.rnd_m_nonneg
  have h1 : 0 ≤ (A.rnd (Dyadic.mul v1 v1)).m :=
    Arithmetic.rnd_m_nonneg A _ (mul_self_nonneg v1.m)
  have h2 : 0 ≤ (A.rnd (Dyadic.mul v2 v2)).m :=
    Arithmetic.rnd_m_nonneg A _ (mul_self_nonneg v2.m)
  unfold Dyadic.add
  simp only []
  positivity

theorem Arithmetic.rnd_one (T : RealType) (A : Arithmetic)
    (hA : A = .exact ∨ A = T.arithmetic) : A.rnd (Dyadic.of_nat 1) = Dyadic.of_nat 1 := by
  rcases hA with hA | hA
  · subst hA
    rfl
  · subst hA
    cases T <;> decide

theorem Dyadic.one_le_iff (s : Dyadic) :
    Dyadic.le (Dyadic.of_nat 1) s = true ↔ (1 : ℝ) ≤ s.toReal := by
  rw [Dyadic.le_iff, Dyadic.toRat_of_nat, Dyadic.toReal_eq]
  constructor
  · intro h
    exact_mod_cast h
  · intro h
    exact_mod_cast h

theorem Dyadic.is_zero_iff_toReal (s : Dyadic) : s.is_zero = true ↔ s.toReal = 0 := by
  rw [Dyadic.is_zero_iff, Dyadic.toReal_eq]
  constructor
  · intro h
    exact_mod_cast h
  · intro h
    exact_mod_cast h

theorem Dyadic.rejected_iff (s : Dyadic) :
    (Dyadic.le (Dyadic.of_nat 1) s || s.is_zero) = true ↔ (1 ≤ s.toReal ∨ s.toReal = 0) := by
  rw [Bool.or_eq_true, Dyadic.one_le_iff, Dyadic.is_zero_iff_toReal]

theorem gauss_v_exact_toReal (u : Dyadic) :
    (gauss_v .exact u).toReal = 2 * u.toReal - 1 := by
  have h := gauss_coordinate_toRat u
  unfold gauss_coordinate at h
  rw [Dyadic.toReal_eq, Dyadic.toReal_eq, h]
  push_cast
  rfl

theorem gauss_s_exact_toReal (v1 v2 : Dyadic) :
    (gauss_s .exact v1 v2).toReal = v1.toReal ^ 2 + v2.toReal ^ 2 := by
  unfold gauss_s
  simp only [Arithmetic.rnd]
  rw [Dyadic.toReal_eq, Dyadic.toReal_eq, Dyadic.toReal_eq, Dyadic.toRat_add,
    Dyadic.toRat_mul, Dyadic.toRat_mul]
  push_cast
  ring

theorem Random.get_gauss_attempt_inv (T : RealType) (A : Arithmetic) (r r2 : Random)
    (v1 v2 s : Dyadic) (h : Random.get_gauss_attempt T A r = .ok ((v1, v2, s), r2)) :
    ∃ (u1 u2 : Dyadic) (r1 : Random), r.get_unif T A = .ok (u1, r1)
      ∧ r1.get_unif T A = .ok (u2, r2)
      ∧ v1 = gauss_v A u1 ∧ v2 = gauss_v A u2 ∧ s = gauss_s A v1 v2 := by
  unfold Random.get_gauss_attempt at h
  cases hu1 : r.get_unif T A with
  | error e =>
    rw [hu1] at h
    cases h
  | ok p1 =>
    obtain ⟨u1, r1⟩ := p1
    rw [hu1] at h
    cases hu2 : r1.get_unif T A with
    | error e =>
      simp only [bind, Except.bind, hu2] at h
      cases h
    | ok p2 =>
      obtain ⟨u2, r2'⟩ := p2
      simp only [bind, Except.bind, hu2, pure, Except.pure] at h
      injection h with h
      simp only [Prod.mk.injEq] at h
      obtain ⟨⟨h1, h2, h3⟩, h4⟩ := h
      subst h4
      exact ⟨u1, u2, r1, rfl, hu2, h1.symm, h2.symm, by rw [← h3, h1, h2]⟩

theorem Random.get_gauss_attempt_some (T : RealType) (A : Arithmetic) (impl : Implementation) :
    ∃ w1 w2 t : Dyadic, Random.get_gauss_attempt T A ⟨some impl⟩
      = .ok ((w1, w2, t), ⟨some (impl.after (2 * T.raw_draws))⟩) := by
  obtain ⟨u1, h1⟩ := Random.get_unif_some T A impl
  obtain ⟨u2, h2⟩ := Random.get_unif_some T A (impl.after T.raw_draws)
  refine ⟨gauss_v A u1, gauss_v A u2, gauss_s A (gauss_v A u1) (gauss_v A u2), ?_⟩
  unfold Random.get_gauss_attempt
  simp only [bind, Except.bind, h1, h2, pure, Except.pure]
  rw [two_mul, Implementation.after_add]

theorem Random.get_gauss_loop_succ (T : RealType) (A : Arithmetic)
    (r r2 : Random) (v1 v2 s : Dyadic)
    (h : Random.get_gauss_attempt T A r = .ok ((v1, v2, s), r2)) (fuel : Nat) :
    Random.get_gauss_loop T A (fuel + 1) r
      = if (Dyadic.le (A.rnd (Dyadic.of_nat 1)) s || s.is_zero) = true
        then Random.get_gauss_loop T A fuel r2 else .ok ((v1, s), r2) := by
  rw [Random.get_gauss_loop, h]
  rfl

theorem neg_two_log_div_pos (s : ℝ) (h0 : 0 < s) (h1 : s < 1) :
    0 < -2 * Real.log s / s := by
  have hl : Real.log s < 0 := Real.log_neg h0 h1
  apply div_pos _ h0
  linarith

/-- C16 (Gaussian sampler): for `T = float` and `T = double`, in exact
arithmetic or in the arithmetic of `T`, an attempt of `get_gauss<T>` takes
two consecutive uniform values `u1`, `u2` from `get_unif<T>` (`u1` first),
forms `v1 = 2*u1 - 1`, `v2 = 2*u2 - 1` and `s = v1^2 + v2^2` (these very
values over real arithmetic, their roundings in the arithmetic of `T`);
`s` is never negative; when `s >= 1` or `s == 0` the pair is rejected and the
loop goes on from the state after the two uniform values; when `0 < s < 1`
the call returns `sqrt(-2*ln(s)/s) * v1` (over the reals) in that state, the
radicand being strictly positive.  From every state with an engine an
attempt returns after exactly two uniform values, that is 2 raw draws for
`float` and 4 for `double`; nothing but the engine state is carried on, so
the second sample is dropped. -/
theorem get_gauss_polar_rejection (T : RealType) (A : Arithmetic)
    (hA : A = .exact ∨ A = T.arithmetic) (r r2 : Random) (v1 v2 s : Dyadic) (fuel : Nat)
    (h : Random.get_gauss_attempt T A r = .ok ((v1, v2, s), r2)) :
    (∃ (u1 u2 : Dyadic) (r1 : Random), r.get_unif T A = .ok (u1, r1)
        ∧ r1.get_unif T A = .ok (u2, r2)
        ∧ v1 = gauss_v A u1 ∧ v2 = gauss_v A u2 ∧ s = gauss_s A v1 v2
        ∧ (A = .exact → v1.toReal = 2 * u1.toReal - 1 ∧ v2.toReal = 2 * u2.toReal - 1
            ∧ s.toReal = v1.toReal ^ 2 + v2.toReal ^ 2))
    ∧ 0 ≤ s.toReal
    ∧ (1 ≤ s.toReal ∨ s.toReal = 0 →
        Random.get_gauss T A (fuel + 1) r = Random.get_gauss T A fuel r2)
    ∧ (0 < s.toReal → s.toReal < 1 →
        Random.get_gauss T A (fuel + 1) r
          = .ok (Real.sqrt (-2 * Real.log s.toReal / s.toReal) * v1.toReal, r2)
        ∧ Real.sqrt (-2 * Real.log s.toReal / s.toReal) * v1.toReal
          = v1.toReal * Real.sqrt (-2 * Real.log s.toReal / s.toReal)
        ∧ 0 < -2 * Real.log s.toReal / s.toReal)
    ∧ (∀ impl : Implementation, ∃ w1 w2 t : Dyadic,
        Random.get_gauss_attempt T A ⟨some impl⟩
          = .ok ((w1, w2, t), ⟨some (impl.after (2 * T.raw_draws))⟩)) := by
  obtain ⟨u1, u2, r1, h1, h2, hv1, hv2, hs⟩ := Random.get_gauss_attempt_inv T A r r2 v1 v2 s h
  have hl := Random.get_gauss_loop_succ T A r r2 v1 v2 s h fuel
  rw [Arithmetic.rnd_one T A hA] at hl
  refine ⟨⟨u1, u2, r1, h1, h2, hv1, hv2, hs, ?_⟩, ?_, ?_, ?_,
    Random.get_gauss_attempt_some T A⟩
  · intro hex
    subst hex
    rw [hs, hv1, hv2]
    exact ⟨gauss_v_exact_toReal u1, gauss_v_exact_toReal u2, gauss_s_exact_toReal _ _⟩
  · rw [hs]
    exact gauss_s_toReal_nonneg A v1 v2
  · intro hrej
    have hb := (Dyadic.rejected_iff s).mpr hrej
    rw [if_pos hb] at hl
    unfold Random.get_gauss
    rw [hl]
  · intro hpos hlt
    have hb : ¬ ((Dyadic.le (Dyadic.of_nat 1) s || s.is_zero) = true) := by
      rw [Dyadic.rejected_iff]
      intro hr
      rcases hr with hr | hr
      · linarith
      · rw [hr] at hpos
        exact lt_irrefl _ hpos
    rw [if_neg hb] at hl
    refine ⟨?_, mul_comm _ _, neg_two_log_div_pos _ hpos hlt⟩
    unfold Random.get_gauss
    rw [hl]
    rfl

set_option maxRecDepth 100000 in
/-- Witness for C16, in binary32 for `float`.  The engine seeded with 0
accepts its first pair (`s = 15564424 / 2^24`).  The engine seeded with
8718880 rejects its first pair, whose `s` rounds to exactly 1.  An engine
whose next two raw draws are both `2^31` has `v1 = v2 = 0`, so `s == 0`, and
rejects the pair. -/
theorem get_gauss_polar_rejection_witness :
    Random.get_gauss .float .binary32 1 (Random.ctor 0)
        = .ok (Real.sqrt (-2 * Real.log (Dyadic.toReal ⟨15564424, -24⟩)
              / Dyadic.toReal ⟨15564424, -24⟩) * Dyadic.toReal ⟨5280187, -23⟩,
            ⟨some ((Implementation.init.seed 0).after 2)⟩)
    ∧ Random.get_gauss_attempt .float .binary32 (Random.ctor 8718880)
        = .ok ((⟨1505220, -23⟩, ⟨-16504915, -24⟩, ⟨16777216, -24⟩),
            ⟨some ((Implementation.init.seed 8718880).after 2)⟩)
    ∧ Random.get_gauss .float .binary32 2 (Random.ctor 8718880)
        = Random.get_gauss .float .binary32 1
            ⟨some ((Implementation.init.seed 8718880).after 2)⟩
    ∧ Implementation.drawn
        ⟨⟨List.replicate 397 0 ++ [2148540932, 2148540932] ++ List.replicate 225 0⟩⟩ 0
        = 2 ^ 31
    ∧ Implementation.drawn
        ⟨⟨List.replicate 397 0 ++ [2148540932, 2148540932] ++ List.replicate 225 0⟩⟩ 1
        = 2 ^ 31
    ∧ Random.get_gauss .float .binary32 1
        ⟨some ⟨⟨List.replicate 397 0 ++ [2148540932, 2148540932] ++ List.replicate 225 0⟩⟩⟩
        = Random.get_gauss .float .binary32 0
            ⟨some (Implementation.after
              ⟨⟨List.replicate 397 0 ++ [2148540932, 2148540932] ++ List.replicate 225 0⟩⟩
              2)⟩ := by
  have hacc : Random.get_gauss_attempt .float .binary32 (Random.ctor 0)
      = .ok ((⟨5280187, -23⟩, ⟨-12231362, -24⟩, ⟨15564424, -24⟩),
          ⟨some ((Implementation.init.seed 0).after 2)⟩) := by rfl
  have hone : Random.get_gauss_attempt .float .binary32 (Random.ctor 8718880)
      = .ok ((⟨1505220, -23⟩, ⟨-16504915, -24⟩, ⟨16777216, -24⟩),
          ⟨some ((Implementation.init.seed 8718880).after 2)⟩) := by rfl
  have hzero : Random.get_gauss_attempt .float .binary32
      ⟨some ⟨⟨List.replicate 397 0 ++ [2148540932, 2148540932] ++ List.replicate 225 0⟩⟩⟩
      = .ok ((⟨0, -23⟩, ⟨0, -23⟩, ⟨0, -46⟩),
          ⟨some (Implementation.after
            ⟨⟨List.replicate 397 0 ++ [2148540932, 2148540932] ++ List.replicate 225 0⟩⟩
            2)⟩) := by rfl
  have s_acc_pos : (0 : ℝ) < Dyadic.toReal ⟨15564424, -24⟩ := by
    norm_num [Dyadic.toReal]
  have s_acc_lt : Dyadic.toReal ⟨15564424, -24⟩ < 1 := by
    norm_num [Dyadic.toReal]
  have s_one : (1 : ℝ) ≤ Dyadic.toReal ⟨16777216, -24⟩ := by
    norm_num [Dyadic.toReal]
  have s_zero : Dyadic.toReal ⟨0, -46⟩ = 0 := by
    norm_num [Dyadic.toReal]
  exact ⟨((get_gauss_polar_rejection .float .binary32 (Or.inr rfl) _ _ _ _ _ 0
      hacc).2.2.2.1 s_acc_pos s_acc_lt).1,
    hone,
    (get_gauss_polar_rejection .float .binary32 (Or.inr rfl) _ _ _ _ _ 1
      hone).2.2.1 (Or.inl s_one),
    by decide, by decide,
    (get_gauss_polar_rejection .float .binary32 (Or.inr rfl) _ _ _ _ _ 0
      hzero).2.2.1 (Or.inr s_zero)⟩

end hh
